import Mathlib

/-!
# Verification of the picoclaw file-locking subsystem and safe file mutations

Shallow embedding of the per-resource locking subsystem and the safe
file-mutation operations of `pkg/tools/filelock.go` and `pkg/tools/edit.go`.

Go strings are modelled as `List Char` (one element per rune; for valid
UTF-8 input, byte-level substring matching of whole strings coincides with
rune-level matching, so this is faithful to `strings.Contains`,
`strings.Count` and `strings.Replace`). The filesystem is modelled as a
partial map from path to file content. Fallible OS calls that the claims
do not exercise (read/write I/O errors) are not modelled; the `os.Stat`
existence check is modelled by the partial map.
-/

namespace Picoclaw

/-- Go string, one element per rune. -/
abbrev GoStr := List Char

/-! ## Go standard library string functions (embedded from their documented
and implemented semantics, as used by `pkg/tools/edit.go`) -/

/-- `strings.Contains(s, sub)`: reports whether `sub` is a substring of `s`.
`strings.Contains(s, "")` is `true` for every `s`. -/
def goContains : GoStr → GoStr → Bool
  | [], sub => sub.isEmpty
  | c :: t, sub => sub.isPrefixOf (c :: t) || goContains t sub

/-- Scanning loop of `strings.Count` for a non-empty pattern: counts
non-overlapping occurrences, advancing past each match. The first
argument is fuel bounding the recursion depth; one scan step always
consumes at least one character, so fuel `s.length` is sufficient
(`goCountAux` below instantiates it that way). -/
def goCountD : Nat → GoStr → GoStr → Nat
  | 0, _, _ => 0
  | _ + 1, [], _ => 0
  | fuel + 1, c :: t, sub =>
    if sub.isPrefixOf (c :: t) then
      1 + goCountD fuel (t.drop (sub.length - 1)) sub
    else goCountD fuel t sub

/-- Scanning loop of `strings.Count` with sufficient fuel. -/
def goCountAux (s sub : GoStr) : Nat := goCountD s.length s sub

/-- `strings.Count(s, sub)`: for empty `sub` this is the rune count of `s`
plus one; otherwise the number of non-overlapping occurrences of `sub`. -/
def goCount (s sub : GoStr) : Nat :=
  if sub.isEmpty then s.length + 1 else goCountAux s sub

/-- `strings.Replace(s, old, new, 1)`: replaces the first occurrence of
`old` by `new`; for empty `old` it inserts `new` before the first rune. -/
def goReplace1 : GoStr → GoStr → GoStr → GoStr
  | s, [], new => new ++ s
  | [], _ :: _, _ => []
  | c :: t, o :: os, new =>
    if (o :: os).isPrefixOf (c :: t) then new ++ (c :: t).drop (o :: os).length
    else c :: goReplace1 t (o :: os) new

/-! ## Filesystem model and the safe file-mutation bodies

`FS` maps a (resolved) path to the content of the file stored there, or
`none` when no file exists at that path. `editFileBody` and
`appendFileBody` are the critical sections that `EditFileTool.Execute` and
`AppendFileTool.Execute` in `pkg/tools/edit.go` run under
`FileLockManager.WithLock`, after `validatePath` has produced the resolved
path. -/

/-- Filesystem state: resolved path to file content (`none` = no file). -/
abbrev FS := GoStr → Option GoStr

/-- Write `content` at `path` (`os.WriteFile` / effect of an append). -/
def fsSet (fs : FS) (path content : GoStr) : FS :=
  fun k => if k = path then some content else fs k

/-- Outcome discriminant of `EditFileTool.Execute` inside the lock.
`notFound` is the branch returning `ErrorResult("file not found: …")`,
`contentNotFound` the branch returning `ErrorResult("old_text not found in
file. Make sure it matches exactly")`, `ambiguous n` the branch returning
`ErrorResult("old_text appears n times. Please provide more context to make
it unique")`, and `edited` the branch returning
`SilentResult("File edited: …")`. -/
inductive EditOutcome where
  | notFound
  | contentNotFound
  | ambiguous (count : Nat)
  | edited
deriving DecidableEq, Repr

/-- `IsError` field of the `ToolResult` each edit branch produces. -/
def EditOutcome.isError : EditOutcome → Bool
  | .notFound => true
  | .contentNotFound => true
  | .ambiguous _ => true
  | .edited => false

/-- `Silent` field of the `ToolResult` each edit branch produces. -/
def EditOutcome.silent : EditOutcome → Bool
  | .edited => true
  | _ => false

/-- The function executed by `EditFileTool.Execute` under the per-path
lock: `os.Stat` existence check, read, `strings.Contains` check,
`strings.Count` ambiguity check, `strings.Replace(…, 1)`, write back. -/
def editFileBody (fs : FS) (path oldText newText : GoStr) :
    EditOutcome × FS :=
  match fs path with
  | none => (.notFound, fs)
  | some content =>
    if goContains content oldText = false then (.contentNotFound, fs)
    else if goCount content oldText > 1 then
      (.ambiguous (goCount content oldText), fs)
    else (.edited, fsSet fs path (goReplace1 content oldText newText))

/-- Outcome discriminant of `AppendFileTool.Execute` inside the lock: the
success branch returning `SilentResult("Appended to …")`. -/
inductive AppendOutcome where
  | appended
deriving DecidableEq, Repr

/-- `IsError` field of the `ToolResult` the append branch produces. -/
def AppendOutcome.isError : AppendOutcome → Bool
  | .appended => false

/-- `Silent` field of the `ToolResult` the append branch produces. -/
def AppendOutcome.silent : AppendOutcome → Bool
  | .appended => true

/-- The function executed by `AppendFileTool.Execute` under the per-path
lock: `os.OpenFile(path, O_APPEND|O_CREATE|O_WRONLY, 0644)` (an absent
file starts empty) followed by `f.WriteString(content)`, which appends
`content` verbatim at the end of the file. -/
def appendFileBody (fs : FS) (path content : GoStr) :
    AppendOutcome × FS :=
  (.appended, fsSet fs path (((fs path).getD []) ++ content))

/-! ## Path canonicalization (`filepath.Clean` / `filepath.Abs`) and the
lock registry (`FileLockManager.getLock` in `pkg/tools/filelock.go`)

Paths use `/` as separator (the lexical algorithm of Go `path/filepath`
on Unix). `filepath.Abs(path)` is `Clean(path)` for an absolute path and
`Clean(cwd + "/" + path)` otherwise, where `cwd` is the working directory
returned by `os.Getwd`; it fails only when `os.Getwd` fails, modelled by
`env = none`. -/

/-- Whether a path is absolute (`filepath.IsAbs` on Unix). -/
def isAbsPath : GoStr → Bool
  | c :: _ => c = '/'
  | [] => false

/-- Split a path on the `/` separator. -/
def splitSlash : GoStr → List GoStr
  | [] => [[]]
  | c :: t =>
    if c = '/' then [] :: splitSlash t
    else
      match splitSlash t with
      | [] => [[c]]
      | h :: r => (c :: h) :: r

/-- Join path elements with the `/` separator. -/
def joinSlash : List GoStr → GoStr
  | [] => []
  | [a] => a
  | a :: b :: r => a ++ '/' :: joinSlash (b :: r)

/-- One element-processing step of `filepath.Clean`: drop empty and `.`
elements; `..` pops the last kept element, except that at the root of an
absolute path it is dropped and at the head of a relative path it is
kept. `acc` holds the kept elements in reverse order. -/
def cleanStep (abs : Bool) (acc : List GoStr) (seg : GoStr) : List GoStr :=
  if seg = [] ∨ seg = ['.'] then acc
  else if seg = ['.', '.'] then
    match acc with
    | [] => if abs then [] else [seg]
    | top :: rest => if top = ['.', '.'] then seg :: top :: rest else rest
  else seg :: acc

/-- Element processing of `filepath.Clean` over all elements. -/
def cleanSegs (abs : Bool) (segs : List GoStr) : List GoStr :=
  (segs.foldl (cleanStep abs) []).reverse

/-- `filepath.Clean(s)`: lexical cleaning; the empty path cleans to `.`,
an emptied absolute path to `/`, an emptied relative path to `.`. -/
def goClean (s : GoStr) : GoStr :=
  if s = [] then ['.']
  else
    match cleanSegs (isAbsPath s) (splitSlash s) with
    | [] => if isAbsPath s then ['/'] else ['.']
    | h :: r => (if isAbsPath s then ['/'] else []) ++ joinSlash (h :: r)

/-- `filepath.Abs(path)` in working directory `cwd` (the success case of
`os.Getwd`): `Clean(path)` if absolute, else `Clean(cwd + "/" + path)`. -/
def goAbs (cwd p : GoStr) : GoStr :=
  if isAbsPath p then goClean p else goClean (cwd ++ '/' :: p)

/-- Canonical registry key computed at the top of
`FileLockManager.getLock`: `filepath.Abs(path)` when it succeeds
(`env = some cwd`), and the `filepath.Clean(path)` fallback when absolute
resolution fails (`env = none`). -/
def canonKey (env : Option GoStr) (path : GoStr) : GoStr :=
  match env with
  | some cwd => goAbs cwd path
  | none => goClean path

/-- A lock is identified by its allocation id, modelling the pointer
identity of a `*sync.Mutex` stored in the registry map. -/
abbrev LockId := Nat

/-- The state of `FileLockManager`: the `locks` map (as an association
list, most recent insertion first) and the next fresh lock id. -/
structure Registry where
  entries : List (GoStr × LockId)
  next : LockId
deriving DecidableEq, Repr

/-- Lookup of a key in the `locks` map. -/
def regFind : List (GoStr × LockId) → GoStr → Option LockId
  | [], _ => none
  | (k, l) :: r, key => if key = k then some l else regFind r key

/-- `FileLockManager.getLock`: canonicalize the path, then, under the
coarse registry mutex, return the existing lock for the key or insert a
fresh one. -/
def getLock (env : Option GoStr) (reg : Registry) (path : GoStr) :
    LockId × Registry :=
  let key := canonKey env path
  match regFind reg.entries key with
  | some l => (l, reg)
  | none => (reg.next, ⟨(key, reg.next) :: reg.entries, reg.next + 1⟩)

/-! ## `FileLockManager.WithLock` as a state-passing computation -/

/-- The multiset of currently held per-path lock keys. -/
abbrev LockState := List GoStr

/-- `FileLockManager.Lock(path)`: acquire the mutex for the canonical key. -/
def lockAcquire (ls : LockState) (key : GoStr) : LockState := key :: ls

/-- `FileLockManager.Unlock(path)`: release the mutex for the canonical
key (`getLock` resolves the same key again). -/
def lockRelease (ls : LockState) (key : GoStr) : LockState := ls.erase key

/-- Result of running a protected operation: a normal return value (which
may itself encode an error result) or an abnormal unwind (a Go panic). -/
inductive Outcome (α : Type) where
  | normal (a : α)
  | unwind
deriving DecidableEq, Repr

/-- `FileLockManager.WithLock(path, fn)`: `Lock(path)` acquires the mutex
of the canonical key; `defer Unlock(path)` re-resolves the same canonical
key and releases it after `fn` finishes — Go runs the deferred release on
every exit of `fn`, normal return, error return, or panic unwinding, which
is why the release below is unconditional in `fn`'s outcome. -/
def withLockRun {α : Type} (env : Option GoStr) (ls : LockState)
    (path : GoStr) (fn : FS → Outcome α × FS) (fs : FS) :
    (Outcome α × FS) × LockState :=
  let key := canonKey env path
  let ls1 := lockAcquire ls key
  let step := fn fs
  let ls2 := lockRelease ls1 key
  ((step.1, step.2), ls2)

/-! ## Action trace of one locked tool call

Used to state where the coarse registry mutex is held relative to file
I/O: `coarseAcq`/`coarseRel` are `flm.mu.Lock()`/`flm.mu.Unlock()`,
`registryOp` is the lookup-or-insert in the `locks` map, `pathAcq`/
`pathRel` are the per-path mutex acquire/release, and `diskOp` is one file
I/O action of the protected body. -/
inductive ToolAct where
  | coarseAcq
  | coarseRel
  | registryOp
  | pathAcq
  | pathRel
  | diskOp
deriving DecidableEq, Repr

/-- Actions of `FileLockManager.getLock`: the coarse mutex is taken,
the map lookup-or-insert runs, the coarse mutex is released. -/
def getLockActs : List ToolAct := [.coarseAcq, .registryOp, .coarseRel]

/-- Actions of `FileLockManager.Lock`: `getLock` then per-path acquire. -/
def lockActs : List ToolAct := getLockActs ++ [.pathAcq]

/-- Actions of `FileLockManager.Unlock`: `getLock` then per-path release. -/
def unlockActs : List ToolAct := getLockActs ++ [.pathRel]

/-- Actions of `FileLockManager.WithLock` around a protected body. -/
def withLockActs (body : List ToolAct) : List ToolAct :=
  lockActs ++ body ++ unlockActs

/-- Track whether the coarse registry mutex is held across one action. -/
def updCoarse (b : Bool) : ToolAct → Bool
  | .coarseAcq => true
  | .coarseRel => false
  | _ => b

/-- Track whether the per-path mutex is held across one action. -/
def updPath (b : Bool) : ToolAct → Bool
  | .pathAcq => true
  | .pathRel => false
  | _ => b

/-- Scan a trace tracking the coarse and per-path lock states: every file
I/O action must execute with the coarse mutex released and the per-path
mutex held, and while the coarse mutex is held the only permitted actions
are the registry lookup-or-insert and the coarse release itself. -/
def coarseSafe : Bool → Bool → List ToolAct → Bool
  | _, _, [] => true
  | coarse, path, a :: rest =>
    ((a != ToolAct.diskOp) || (!coarse && path)) &&
    ((!coarse) || (a == ToolAct.registryOp || a == ToolAct.coarseRel)) &&
    coarseSafe (updCoarse coarse a) (updPath path a) rest

/-! ## Interleaved executions of locked operations on one path

Each concurrent `SafeEdit`/`SafeAppend` call on a fixed path is a sequence
of four micro-steps: acquire the per-path lock, read the file, write the
file, release the lock. A configuration records the current file content,
the current holder of the per-path lock, every operation's program
counter, and the order in which the lock was acquired so far. The
nondeterministic step relation interleaves the micro-steps of all
operations arbitrarily, subject only to the mutex semantics of the
per-path lock. -/

/-- One tool call on the shared path. -/
inductive FileOp where
  | append (payload : GoStr)
  | edit (oldText newText : GoStr)
deriving DecidableEq, Repr

/-- Sequential content semantics of one whole call: an append extends the
content by its payload; an edit replaces a unique match and leaves the
content unchanged when the match is absent or ambiguous. -/
def applyOp : FileOp → GoStr → GoStr
  | .append p, c => c ++ p
  | .edit o n, c =>
    if goContains c o = false then c
    else if goCount c o > 1 then c
    else goReplace1 c o n

/-- Effect of the write micro-step on the file: an append (`O_APPEND`)
writes its payload at the current end of file, while an edit writes
content computed from the snapshot it read earlier (an edit that fails
its match checks leaves the snapshot content in place). -/
def applyWrite : FileOp → GoStr → GoStr → GoStr
  | .append p, _, cur => cur ++ p
  | .edit o n, snap, _ => applyOp (.edit o n) snap

/-- Program counter of one operation. -/
inductive OpPC where
  | start
  | locked
  | readDone (snap : GoStr)
  | written
  | done
deriving DecidableEq, Repr

/-- Configuration of `n` interleaved operations on one shared path. -/
structure Cfg (n : Nat) where
  content : GoStr
  lockHeld : Option (Fin n)
  pc : Fin n → OpPC
  order : List (Fin n)

/-- Interleaving step relation: any operation whose next micro-step is
enabled may move. Acquisition requires the per-path lock to be free and
appends the acquirer to the acquisition order. -/
inductive OpStep {n : Nat} (ops : Fin n → FileOp) : Cfg n → Cfg n → Prop where
  | acq (c : Cfg n) (i : Fin n) :
      c.pc i = .start → c.lockHeld = none →
      OpStep ops c { c with lockHeld := some i,
                            pc := Function.update c.pc i .locked,
                            order := c.order ++ [i] }
  | read (c : Cfg n) (i : Fin n) :
      c.pc i = .locked →
      OpStep ops c { c with pc := Function.update c.pc i (.readDone c.content) }
  | write (c : Cfg n) (i : Fin n) (snap : GoStr) :
      c.pc i = .readDone snap →
      OpStep ops c { c with content := applyWrite (ops i) snap c.content,
                            pc := Function.update c.pc i .written }
  | release (c : Cfg n) (i : Fin n) :
      c.pc i = .written →
      OpStep ops c { c with lockHeld := none,
                            pc := Function.update c.pc i .done }

/-- Initial configuration: pre-existing content, lock free, nothing run. -/
def initCfg (n : Nat) (c0 : GoStr) : Cfg n :=
  { content := c0, lockHeld := none, pc := fun _ => .start, order := [] }

/-- Reachability under arbitrary interleaving. -/
def Reaches {n : Nat} (ops : Fin n → FileOp) : Cfg n → Cfg n → Prop :=
  Relation.ReflTransGen (OpStep ops)

/-- Sequential execution of the calls listed in `l`, in order. -/
def execSeq {n : Nat} (ops : Fin n → FileOp) (c0 : GoStr)
    (l : List (Fin n)) : GoStr :=
  l.foldl (fun c i => applyOp (ops i) c) c0

/-- Payload of an append call. -/
def payloadOf : FileOp → GoStr
  | .append p => p
  | .edit _ _ => []

/-- Inductive invariant of the interleaving semantics: the acquisition
order lists exactly the started operations without duplicates; operations
not holding the lock are entirely unstarted or entirely finished; and the
file content is the sequential execution of the finished prefix of the
acquisition order, with the current lock holder (if any) last in the order
and its snapshot equal to the content it will transform. -/
def CfgInv {n : Nat} (ops : Fin n → FileOp) (c0 : GoStr) (c : Cfg n) : Prop :=
  c.order.Nodup ∧
  (∀ i, i ∈ c.order ↔ c.pc i ≠ .start) ∧
  (∀ i, c.lockHeld ≠ some i → c.pc i = .start ∨ c.pc i = .done) ∧
  (match c.lockHeld with
   | none => (∀ i ∈ c.order, c.pc i = .done) ∧ c.content = execSeq ops c0 c.order
   | some j => ∃ pre, c.order = pre ++ [j] ∧ (∀ i ∈ pre, c.pc i = .done) ∧
       ((c.pc j = .locked ∧ c.content = execSeq ops c0 pre) ∨
        (c.pc j = .readDone (execSeq ops c0 pre) ∧
          c.content = execSeq ops c0 pre) ∨
        (c.pc j = .written ∧ c.content = execSeq ops c0 c.order)))

/-! ## Basic lemmas about the string functions -/

theorem goContains_nil_right (s : GoStr) : goContains s [] = true := by
  cases s <;> simp [goContains, List.isPrefixOf]

theorem goCount_nil_right (s : GoStr) : goCount s [] = s.length + 1 := by
  simp [goCount]

theorem goCountD_eq_zero_iff (fuel : Nat) : ∀ s sub : GoStr,
    s.length ≤ fuel → sub ≠ [] →
    (goCountD fuel s sub = 0 ↔ goContains s sub = false) := by
  induction fuel with
  | zero =>
    intro s sub hlen hsub
    have hs : s = [] := List.eq_nil_of_length_eq_zero (Nat.le_zero.mp hlen)
    subst hs
    obtain ⟨o, os, rfl⟩ := List.exists_cons_of_ne_nil hsub
    simp [goCountD, goContains]
  | succ fuel ih =>
    intro s sub hlen hsub
    cases s with
    | nil =>
      obtain ⟨o, os, rfl⟩ := List.exists_cons_of_ne_nil hsub
      simp [goCountD, goContains]
    | cons c t =>
      cases hpre : sub.isPrefixOf (c :: t) with
      | true =>
        rw [goCountD, if_pos hpre, goContains, hpre]
        simp
      | false =>
        rw [goCountD, if_neg (by simp [hpre]), goContains, hpre]
        simp only [Bool.false_or]
        exact ih t sub (by simp at hlen; omega) hsub

theorem goCountAux_eq_zero_iff (s sub : GoStr) :
    sub ≠ [] → (goCountAux s sub = 0 ↔ goContains s sub = false) :=
  goCountD_eq_zero_iff s.length s sub (Nat.le_refl _)

theorem goContains_eq_false_iff_goCount_eq_zero (s sub : GoStr) :
    goContains s sub = false ↔ goCount s sub = 0 := by
  by_cases hsub : sub = []
  · subst hsub
    simp [goContains_nil_right, goCount]
  · rw [goCount, if_neg (by simpa using hsub)]
    exact ((goCountAux_eq_zero_iff s sub) hsub).symm

theorem goContains_append_self (sub post : GoStr) :
    goContains (sub ++ post) sub = true := by
  cases sub with
  | nil => exact goContains_nil_right post
  | cons o os =>
    rw [List.cons_append, goContains]
    have h : (o :: os).isPrefixOf (o :: (os ++ post)) = true := by
      rw [List.isPrefixOf_iff_prefix]
      exact ⟨post, by simp⟩
    simp [h]

theorem goContains_iff_exists (s sub : GoStr) :
    goContains s sub = true ↔ ∃ pre post, s = pre ++ sub ++ post := by
  constructor
  · intro h
    induction s with
    | nil =>
      refine ⟨[], [], ?_⟩
      simp [goContains] at h
      simp [h]
    | cons c t ih =>
      rw [goContains, Bool.or_eq_true] at h
      rcases h with h | h
      · refine ⟨[], (c :: t).drop sub.length, ?_⟩
        have hp : sub <+: c :: t := by
          exact List.isPrefixOf_iff_prefix.mp h
        obtain ⟨post, hpost⟩ := hp
        simp [← hpost]
      · obtain ⟨pre, post, hpp⟩ := ih h
        exact ⟨c :: pre, post, by simp [hpp]⟩
  · rintro ⟨pre, post, rfl⟩
    induction pre with
    | nil =>
      rw [List.nil_append]
      exact goContains_append_self sub post
    | cons c pre ih =>
      rw [List.cons_append, List.cons_append, goContains]
      simp only [List.append_assoc] at ih ⊢
      simp [ih]

/-- `strings.Replace(s, old, new, 1)` rewrites exactly the first occurrence
of `old`: the content splits as `pre ++ old ++ post`, the result is
`pre ++ new ++ post`, and no occurrence of `old` starts earlier than `pre`
ends. -/
theorem goReplace1_first_occurrence (s old new : GoStr) :
    goContains s old = true →
    ∃ pre post, s = pre ++ old ++ post ∧
      goReplace1 s old new = pre ++ new ++ post ∧
      ∀ pre2 post2, s = pre2 ++ old ++ post2 → pre.length ≤ pre2.length := by
  induction s with
  | nil =>
    intro h
    have hold : old = [] := by
      cases old with
      | nil => rfl
      | cons o os => simp [goContains] at h
    subst hold
    exact ⟨[], [], by simp, by simp [goReplace1], fun _ _ _ => Nat.zero_le _⟩
  | cons c t ih =>
    intro h
    by_cases hpre : old.isPrefixOf (c :: t) = true
    · have hsplit : old ++ (c :: t).drop old.length = c :: t := by
        obtain ⟨q, hq⟩ := List.isPrefixOf_iff_prefix.mp hpre
        rw [← hq, List.drop_left]
      refine ⟨[], (c :: t).drop old.length,
        by rw [List.nil_append]; exact hsplit.symm, ?_,
        fun _ _ _ => Nat.zero_le _⟩
      cases old with
      | nil => simp [goReplace1]
      | cons o os => simp [goReplace1, hpre]
    · have hold : old ≠ [] := by
        intro hnil
        subst hnil
        simp [List.isPrefixOf] at hpre
      obtain ⟨o, os, rfl⟩ := List.exists_cons_of_ne_nil hold
      rw [goContains] at h
      simp only [hpre, Bool.false_or] at h
      obtain ⟨pre, post, h1, h2, h3⟩ := ih h
      refine ⟨c :: pre, post, by simp [h1], ?_, ?_⟩
      · rw [goReplace1, if_neg (by simpa using hpre)]
        simp [h2]
      · intro pre2 post2 heq
        cases pre2 with
        | nil =>
          exfalso
          apply hpre
          rw [List.isPrefixOf_iff_prefix]
          rw [List.nil_append] at heq
          exact ⟨post2, by rw [← heq]⟩
        | cons d pre2t =>
          have hct : t = pre2t ++ (o :: os) ++ post2 := by
            simpa using congrArg List.tail heq
          simpa using Nat.succ_le_succ (h3 pre2t post2 hct)

/-! ## Claims about `SafeEdit` / `SafeAppend` on the filesystem model -/

/-- C2: for every existing file and every `oldText`, `SafeEdit` fails with
`ContentNotFound` exactly when `oldText` occurs zero times in the content
(equivalently: has no substring occurrence at all), fails with
`AmbiguousMatch` exactly when the occurrence count is at least 2, and in
both failure cases the filesystem is left unchanged. -/
theorem editFileBody_failure_modes (fs : FS) (path oldText newText content : GoStr)
    (hfile : fs path = some content) :
    ((editFileBody fs path oldText newText).1 = .contentNotFound ↔
      goCount content oldText = 0) ∧
    (goCount content oldText = 0 ↔
      ¬ ∃ pre post, content = pre ++ oldText ++ post) ∧
    ((∃ k, (editFileBody fs path oldText newText).1 = .ambiguous k) ↔
      2 ≤ goCount content oldText) ∧
    (((editFileBody fs path oldText newText).1 = .contentNotFound ∨
      ∃ k, (editFileBody fs path oldText newText).1 = .ambiguous k) →
      (editFileBody fs path oldText newText).2 = fs) := by
  have hocc : goCount content oldText = 0 ↔
      ¬ ∃ pre post, content = pre ++ oldText ++ post := by
    rw [← goContains_eq_false_iff_goCount_eq_zero, ← goContains_iff_exists]
    simp
  refine ⟨?_, hocc, ?_, ?_⟩ <;>
    by_cases hc : goContains content oldText = false
  · have h0 : goCount content oldText = 0 :=
      (goContains_eq_false_iff_goCount_eq_zero content oldText).mp hc
    simp [editFileBody, hfile, hc, h0]
  · have h0 : goCount content oldText ≠ 0 := by
      intro h
      exact hc ((goContains_eq_false_iff_goCount_eq_zero content oldText).mpr h)
    by_cases h2 : goCount content oldText > 1 <;>
      simp [editFileBody, hfile, hc, h2, h0]
  · have h0 : goCount content oldText = 0 :=
      (goContains_eq_false_iff_goCount_eq_zero content oldText).mp hc
    simp [editFileBody, hfile, hc, h0]
  · by_cases h2 : goCount content oldText > 1 <;>
      simp [editFileBody, hfile, hc, h2] <;> omega
  · simp [editFileBody, hfile, hc]
  · by_cases h2 : goCount content oldText > 1 <;>
      simp [editFileBody, hfile, hc, h2]

/-- C2 witness: on content `"test test test"` with `oldText = "test"`, the
edit fails with the ambiguous-match error (count 3) and the filesystem is
unchanged. -/
theorem editFileBody_failure_modes_witness :
    ((fun k => if k = "/w/f.txt".toList then some ("test test test".toList)
               else none) "/w/f.txt".toList = some ("test test test".toList)) ∧
    (((editFileBody
        (fun k => if k = "/w/f.txt".toList then some ("test test test".toList)
                  else none)
        "/w/f.txt".toList "test".toList "done".toList).1 = .contentNotFound ↔
      goCount ("test test test".toList) ("test".toList) = 0) ∧
    (goCount ("test test test".toList) ("test".toList) = 0 ↔
      ¬ ∃ pre post, "test test test".toList = pre ++ "test".toList ++ post) ∧
    ((∃ k, (editFileBody
        (fun k => if k = "/w/f.txt".toList then some ("test test test".toList)
                  else none)
        "/w/f.txt".toList "test".toList "done".toList).1 = .ambiguous k) ↔
      2 ≤ goCount ("test test test".toList) ("test".toList)) ∧
    (((editFileBody
        (fun k => if k = "/w/f.txt".toList then some ("test test test".toList)
                  else none)
        "/w/f.txt".toList "test".toList "done".toList).1 = .contentNotFound ∨
      ∃ k, (editFileBody
        (fun k => if k = "/w/f.txt".toList then some ("test test test".toList)
                  else none)
        "/w/f.txt".toList "test".toList "done".toList).1 = .ambiguous k) →
      (editFileBody
        (fun k => if k = "/w/f.txt".toList then some ("test test test".toList)
                  else none)
        "/w/f.txt".toList "test".toList "done".toList).2 =
        (fun k => if k = "/w/f.txt".toList then some ("test test test".toList)
                  else none))) ∧
    (editFileBody
        (fun k => if k = "/w/f.txt".toList then some ("test test test".toList)
                  else none)
        "/w/f.txt".toList "test".toList "done".toList).1 = .ambiguous 3 :=
  ⟨by decide,
   editFileBody_failure_modes _ _ _ _ _ (by decide),
   by decide⟩

/-- C3: on an existing file whose content has exactly one occurrence of
`oldText`, `SafeEdit` succeeds and the new content is the old content with
that (first) occurrence replaced by `newText` — the prefix before it and
the suffix after it are unchanged, no other file changes, and no
occurrence starts earlier. -/
theorem editFileBody_unique_replaces (fs : FS)
    (path oldText newText content : GoStr)
    (hfile : fs path = some content)
    (hone : goCount content oldText = 1) :
    (editFileBody fs path oldText newText).1 = .edited ∧
    (editFileBody fs path oldText newText).1.isError = false ∧
    ∃ pre post, content = pre ++ oldText ++ post ∧
      (editFileBody fs path oldText newText).2 path =
        some (pre ++ newText ++ post) ∧
      (∀ k, k ≠ path → (editFileBody fs path oldText newText).2 k = fs k) ∧
      (∀ pre2 post2, content = pre2 ++ oldText ++ post2 →
        pre.length ≤ pre2.length) := by
  have hc : goContains content oldText ≠ false := by
    intro h
    rw [goContains_eq_false_iff_goCount_eq_zero, hone] at h
    exact Nat.one_ne_zero h
  have h2 : ¬ goCount content oldText > 1 := by omega
  have hct : goContains content oldText = true := by
    cases h : goContains content oldText with
    | true => rfl
    | false => exact absurd h hc
  obtain ⟨pre, post, hsplit, hrepl, hmin⟩ :=
    goReplace1_first_occurrence content oldText newText hct
  refine ⟨by simp [editFileBody, hfile, hc, h2], by
    simp [editFileBody, hfile, hc, h2, EditOutcome.isError],
    pre, post, hsplit, ?_, ?_, hmin⟩
  · simp [editFileBody, hfile, hc, h2, fsSet, hrepl]
  · intro k hk
    simp [editFileBody, hfile, hc, h2, fsSet, hk]

/-- C3 witness: content `"Hello World\nThis is a test"` edited with
`oldText = "World"`, `newText = "Universe"` succeeds, the final content is
`"Hello Universe\nThis is a test"`, which contains `"Hello Universe"` and
no longer contains `"Hello World"`. -/
theorem editFileBody_unique_replaces_witness :
    ((fun k => if k = "/w/f.txt".toList
               then some ("Hello World\nThis is a test".toList) else none)
      "/w/f.txt".toList = some ("Hello World\nThis is a test".toList)) ∧
    goCount ("Hello World\nThis is a test".toList) ("World".toList) = 1 ∧
    ((editFileBody
        (fun k => if k = "/w/f.txt".toList
                  then some ("Hello World\nThis is a test".toList) else none)
        "/w/f.txt".toList "World".toList "Universe".toList).1 = .edited ∧
     (editFileBody
        (fun k => if k = "/w/f.txt".toList
                  then some ("Hello World\nThis is a test".toList) else none)
        "/w/f.txt".toList "World".toList "Universe".toList).1.isError = false ∧
     ∃ pre post,
       "Hello World\nThis is a test".toList = pre ++ "World".toList ++ post ∧
       (editFileBody
          (fun k => if k = "/w/f.txt".toList
                    then some ("Hello World\nThis is a test".toList) else none)
          "/w/f.txt".toList "World".toList "Universe".toList).2
          "/w/f.txt".toList = some (pre ++ "Universe".toList ++ post) ∧
       (∀ k, k ≠ "/w/f.txt".toList →
         (editFileBody
            (fun k2 => if k2 = "/w/f.txt".toList
                       then some ("Hello World\nThis is a test".toList)
                       else none)
            "/w/f.txt".toList "World".toList "Universe".toList).2 k =
           (fun k2 => if k2 = "/w/f.txt".toList
                      then some ("Hello World\nThis is a test".toList)
                      else none) k) ∧
       (∀ pre2 post2,
         "Hello World\nThis is a test".toList = pre2 ++ "World".toList ++ post2 →
         pre.length ≤ pre2.length)) ∧
    (editFileBody
        (fun k => if k = "/w/f.txt".toList
                  then some ("Hello World\nThis is a test".toList) else none)
        "/w/f.txt".toList "World".toList "Universe".toList).2
        "/w/f.txt".toList = some ("Hello Universe\nThis is a test".toList) ∧
    goContains ("Hello Universe\nThis is a test".toList)
      ("Hello Universe".toList) = true ∧
    goContains ("Hello Universe\nThis is a test".toList)
      ("Hello World".toList) = false :=
  ⟨by decide, by decide,
   editFileBody_unique_replaces _ _ _ _ _ (by decide) (by decide),
   by decide, by decide, by decide⟩

/-- C4: `SafeAppend` always succeeds with a silent result (in particular,
empty content is accepted, not an error): the target file afterwards holds
its prior content (empty when the file did not exist, so the file is
created) followed by `content` appended verbatim with no separator, and no
other file changes. -/
theorem appendFileBody_appends (fs : FS) (path content : GoStr) :
    (appendFileBody fs path content).1.isError = false ∧
    (appendFileBody fs path content).1.silent = true ∧
    (appendFileBody fs path content).2 path =
      some ((fs path).getD [] ++ content) ∧
    (∀ k, k ≠ path → (appendFileBody fs path content).2 k = fs k) := by
  refine ⟨rfl, rfl, by simp [appendFileBody, fsSet], ?_⟩
  intro k hk
  simp [appendFileBody, fsSet, hk]

/-- C4 witness: appending `"data"` to an absent file creates it with
exactly that content, and appending the empty string to an existing file
succeeds and leaves its content unchanged. -/
theorem appendFileBody_appends_witness :
    ((appendFileBody (fun _ => none) "/w/new.txt".toList "data".toList).1.isError
        = false ∧
     (appendFileBody (fun _ => none) "/w/new.txt".toList "data".toList).1.silent
        = true ∧
     (appendFileBody (fun _ => none) "/w/new.txt".toList "data".toList).2
        "/w/new.txt".toList =
       some (((fun _ => none : FS) "/w/new.txt".toList).getD [] ++
         "data".toList) ∧
     (∀ k, k ≠ "/w/new.txt".toList →
       (appendFileBody (fun _ => none) "/w/new.txt".toList "data".toList).2 k =
         (fun _ => none : FS) k)) ∧
    (appendFileBody (fun _ => none) "/w/new.txt".toList "data".toList).2
      "/w/new.txt".toList = some ("data".toList) ∧
    (appendFileBody
      (fun k => if k = "/w/old.txt".toList then some ("ab".toList) else none)
      "/w/old.txt".toList []).1.isError = false ∧
    (appendFileBody
      (fun k => if k = "/w/old.txt".toList then some ("ab".toList) else none)
      "/w/old.txt".toList []).2 "/w/old.txt".toList = some ("ab".toList) :=
  ⟨appendFileBody_appends _ _ _, by decide, by decide, by decide⟩

/-- C5: `SafeEdit` on a path with no file fails with `NotFound`, performs
no replacement, and leaves the filesystem unchanged — in particular it
does not create the file. -/
theorem editFileBody_missing_file (fs : FS) (path oldText newText : GoStr)
    (hmiss : fs path = none) :
    (editFileBody fs path oldText newText).1 = .notFound ∧
    (editFileBody fs path oldText newText).1.isError = true ∧
    (editFileBody fs path oldText newText).2 = fs ∧
    (editFileBody fs path oldText newText).2 path = none := by
  refine ⟨?_, ?_, ?_, ?_⟩ <;> simp [editFileBody, hmiss, EditOutcome.isError]

/-- C5 witness: editing `"/w/none.txt"` on an empty filesystem fails with
`NotFound` and still no file exists at the path afterwards. -/
theorem editFileBody_missing_file_witness :
    ((fun _ => none : FS) "/w/none.txt".toList = none) ∧
    ((editFileBody (fun _ => none) "/w/none.txt".toList "a".toList
        "b".toList).1 = .notFound ∧
     (editFileBody (fun _ => none) "/w/none.txt".toList "a".toList
        "b".toList).1.isError = true ∧
     (editFileBody (fun _ => none) "/w/none.txt".toList "a".toList
        "b".toList).2 = (fun _ => none : FS) ∧
     (editFileBody (fun _ => none) "/w/none.txt".toList "a".toList
        "b".toList).2 "/w/none.txt".toList = none) :=
  ⟨rfl, editFileBody_missing_file _ _ _ _ rfl⟩

/-- C10: with an empty `oldText`, `SafeEdit` on an existing file never
fails with `ContentNotFound`: on a non-empty file the occurrence count is
the rune count plus one (at least 2), so it fails with the
ambiguous-match error and changes nothing, while on an empty file it
succeeds and the file's new content is exactly `newText`. -/
theorem editFileBody_empty_oldText (fs : FS) (path newText content : GoStr)
    (hfile : fs path = some content) :
    (editFileBody fs path [] newText).1 ≠ .contentNotFound ∧
    (content ≠ [] →
      (editFileBody fs path [] newText).1 = .ambiguous (content.length + 1) ∧
      2 ≤ content.length + 1 ∧
      (editFileBody fs path [] newText).2 = fs) ∧
    (content = [] →
      (editFileBody fs path [] newText).1 = .edited ∧
      (editFileBody fs path [] newText).2 path = some newText) := by
  have hc : goContains content [] = true := goContains_nil_right content
  have hcount : goCount content [] = content.length + 1 :=
    goCount_nil_right content
  refine ⟨?_, ?_, ?_⟩
  · cases content with
    | nil => simp [editFileBody, hfile, hc, hcount, goReplace1, fsSet]
    | cons c t => simp [editFileBody, hfile, hc, hcount]
  · intro hne
    have hlen : 0 < content.length := List.length_pos.mpr hne
    have h2 : goCount content [] > 1 := by omega
    refine ⟨?_, by omega, ?_⟩ <;>
      simp [editFileBody, hfile, hc, h2, hcount, hlen]
  · intro hnil
    subst hnil
    simp [editFileBody, hfile, hc, hcount, goReplace1, fsSet]

/-- C10 witness: with empty `oldText` on file content `"ab"` the edit
fails ambiguous with count 3; on an empty file it succeeds and the file
then contains exactly `newText = "X"`. -/
theorem editFileBody_empty_oldText_witness :
    ((fun k => if k = "/w/f.txt".toList then some ("ab".toList) else none)
        "/w/f.txt".toList = some ("ab".toList)) ∧
    ((editFileBody
        (fun k => if k = "/w/f.txt".toList then some ("ab".toList) else none)
        "/w/f.txt".toList [] ("X".toList)).1 ≠ .contentNotFound ∧
     ("ab".toList ≠ [] →
       (editFileBody
          (fun k => if k = "/w/f.txt".toList then some ("ab".toList) else none)
          "/w/f.txt".toList [] ("X".toList)).1 =
            .ambiguous ("ab".toList.length + 1) ∧
       2 ≤ "ab".toList.length + 1 ∧
       (editFileBody
          (fun k => if k = "/w/f.txt".toList then some ("ab".toList) else none)
          "/w/f.txt".toList [] ("X".toList)).2 =
         (fun k => if k = "/w/f.txt".toList then some ("ab".toList)
                   else none)) ∧
     ("ab".toList = [] →
       (editFileBody
          (fun k => if k = "/w/f.txt".toList then some ("ab".toList) else none)
          "/w/f.txt".toList [] ("X".toList)).1 = .edited ∧
       (editFileBody
          (fun k => if k = "/w/f.txt".toList then some ("ab".toList) else none)
          "/w/f.txt".toList [] ("X".toList)).2 "/w/f.txt".toList =
         some ("X".toList))) ∧
    (editFileBody
        (fun k => if k = "/w/f.txt".toList then some ("ab".toList) else none)
        "/w/f.txt".toList [] ("X".toList)).1 = .ambiguous 3 ∧
    (editFileBody (fun k => if k = "/w/empty.txt".toList then some []
                            else none)
        "/w/empty.txt".toList [] ("X".toList)).1 = .edited ∧
    (editFileBody (fun k => if k = "/w/empty.txt".toList then some []
                            else none)
        "/w/empty.txt".toList [] ("X".toList)).2 "/w/empty.txt".toList =
      some ("X".toList) :=
  ⟨by decide,
   editFileBody_empty_oldText _ _ _ _ (by decide),
   by decide, by decide, by decide⟩

/-! ## Claims about `FileLockManager.WithLock` and `getLock` -/

/-- C6: `WithLock` acquires the per-path lock, runs the operation, and the
deferred release restores the lock state on every exit path — whether the
operation returns normally (possibly with an error result) or unwinds by
panic (`Outcome.unwind`) — and `WithLock` propagates exactly the outcome
and filesystem effect the operation produced. -/
theorem withLockRun_releases_and_returns {α : Type} (env : Option GoStr)
    (ls : LockState) (path : GoStr) (fn : FS → Outcome α × FS) (fs : FS) :
    (withLockRun env ls path fn fs).2 = ls ∧
    (withLockRun env ls path fn fs).1.1 = (fn fs).1 ∧
    (withLockRun env ls path fn fs).1.2 = (fn fs).2 := by
  refine ⟨?_, rfl, rfl⟩
  simp [withLockRun, lockAcquire, lockRelease]

/-- C6 witness: a concrete normally-returning operation and a concrete
panicking operation; in both cases the lock state afterwards equals the
lock state before the call and the outcome is the operation's own. -/
theorem withLockRun_releases_and_returns_witness :
    ((withLockRun (some ("/w".toList)) [] ("a.txt".toList)
        (fun fs => (Outcome.normal 7, fs)) (fun _ => none)).2 = [] ∧
     (withLockRun (some ("/w".toList)) [] ("a.txt".toList)
        (fun fs => (Outcome.normal 7, fs)) (fun _ => none)).1.1 =
       ((fun fs => ((Outcome.normal 7 : Outcome Nat), fs))
         (fun _ => none : FS)).1 ∧
     (withLockRun (some ("/w".toList)) [] ("a.txt".toList)
        (fun fs => (Outcome.normal 7, fs)) (fun _ => none)).1.2 =
       ((fun fs => ((Outcome.normal 7 : Outcome Nat), fs))
         (fun _ => none : FS)).2) ∧
    ((withLockRun (some ("/w".toList)) [] ("a.txt".toList)
        (fun fs => ((Outcome.unwind : Outcome Nat), fs)) (fun _ => none)).2 =
       [] ∧
     (withLockRun (some ("/w".toList)) [] ("a.txt".toList)
        (fun fs => ((Outcome.unwind : Outcome Nat), fs))
        (fun _ => none)).1.1 = Outcome.unwind) :=
  ⟨withLockRun_releases_and_returns _ _ _ _ _,
   (withLockRun_releases_and_returns _ _ _
     (fun fs => ((Outcome.unwind : Outcome Nat), fs)) _).1,
   (withLockRun_releases_and_returns _ _ _
     (fun fs => ((Outcome.unwind : Outcome Nat), fs)) _).2.1⟩

/-- C8: lock acquisition is total — for every path and every outcome of
absolute-path resolution, including the failure fallback to the cleaned
relative path (`env = none`), `getLock` returns a lock registered under
the deterministic canonical key; its result type has no error branch. -/
theorem getLock_total (env : Option GoStr) (reg : Registry) (path : GoStr) :
    regFind (getLock env reg path).2.entries (canonKey env path) =
      some (getLock env reg path).1 ∧
    canonKey none path = goClean path ∧
    (∀ cwd, canonKey (some cwd) path = goAbs cwd path) := by
  refine ⟨?_, rfl, fun _ => rfl⟩
  cases hfind : regFind reg.entries (canonKey env path) with
  | none => simp [getLock, hfind, regFind]
  | some l => simp [getLock, hfind]

/-! ## Claim about the coarse registry lock and file I/O (trace level) -/

/-- Helper for C9: scanning the protected body (file I/O only) followed by
the `Unlock` actions, starting with the coarse mutex released and the
per-path mutex held, satisfies the coarse-lock discipline. -/
theorem coarseSafe_body_unlock (body : List ToolAct)
    (hbody : ∀ a ∈ body, a = ToolAct.diskOp) :
    coarseSafe false true (body ++ unlockActs) = true := by
  induction body with
  | nil => decide
  | cons a rest ih =>
    have ha : a = ToolAct.diskOp := hbody a (by simp)
    subst ha
    have hrest : ∀ x ∈ rest, x = ToolAct.diskOp :=
      fun x hx => hbody x (by simp [hx])
    simpa [coarseSafe, updCoarse, updPath] using ih hrest

/-- C9: in a `WithLock` call whose protected body performs only file I/O,
the coarse registry mutex is held only across the lookup-or-insert (and
its own release), and every file I/O action of the per-path critical
section executes with the coarse mutex released and only the per-path
mutex held. -/
theorem coarseLock_discipline (body : List ToolAct)
    (hbody : ∀ a ∈ body, a = ToolAct.diskOp) :
    coarseSafe false false (withLockActs body) = true := by
  have h := coarseSafe_body_unlock body hbody
  simp only [withLockActs, lockActs, getLockActs, List.cons_append,
    List.nil_append, List.append_assoc]
  simpa [coarseSafe, updCoarse, updPath] using h

/-- C9 witness: a body of two file I/O actions (a read and a write of the
read-modify-write) satisfies the coarse-lock discipline. -/
theorem coarseLock_discipline_witness :
    (∀ a ∈ [ToolAct.diskOp, ToolAct.diskOp], a = ToolAct.diskOp) ∧
    coarseSafe false false
      (withLockActs [ToolAct.diskOp, ToolAct.diskOp]) = true :=
  ⟨by decide, coarseLock_discipline _ (by decide)⟩

/-! ## Lemmas about path canonicalization -/

theorem splitSlash_ne_nil (s : GoStr) : splitSlash s ≠ [] := by
  cases s with
  | nil => simp [splitSlash]
  | cons c t =>
    rw [splitSlash]
    by_cases hc : c = '/'
    · simp [hc]
    · simp only [hc, if_false]
      cases splitSlash t <;> simp

theorem mem_splitSlash_no_slash (s : GoStr) :
    ∀ seg ∈ splitSlash s, '/' ∉ seg := by
  induction s with
  | nil => simp [splitSlash]
  | cons c t ih =>
    rw [splitSlash]
    by_cases hc : c = '/'
    · simp only [hc, if_pos rfl]
      intro seg hseg
      rcases List.mem_cons.mp hseg with rfl | hseg
      · simp
      · exact ih seg hseg
    · simp only [hc, if_false]
      cases hsp : splitSlash t with
      | nil => exact absurd hsp (splitSlash_ne_nil t)
      | cons h r =>
        intro seg hseg
        rcases List.mem_cons.mp hseg with rfl | hseg
        · intro hmem
          rcases List.mem_cons.mp hmem with rfl | hmem
          · exact hc rfl
          · exact ih h (hsp ▸ List.mem_cons_self h r) hmem
        · exact ih seg (hsp ▸ List.mem_cons_of_mem h hseg)

theorem splitSlash_no_slash_self (a : GoStr) (h : '/' ∉ a) :
    splitSlash a = [a] := by
  induction a with
  | nil => rfl
  | cons c t ih =>
    have hc : c ≠ '/' := fun hcc => h (hcc ▸ List.mem_cons_self c t)
    have ht : '/' ∉ t := fun hmem => h (List.mem_cons_of_mem c hmem)
    rw [splitSlash, if_neg hc, ih ht]

theorem splitSlash_append (a l : GoStr) (h : GoStr) (t : List GoStr)
    (ha : '/' ∉ a) (hl : splitSlash l = h :: t) :
    splitSlash (a ++ l) = (a ++ h) :: t := by
  induction a with
  | nil => simpa using hl
  | cons c a2 ih =>
    have hc : c ≠ '/' := fun hcc => ha (hcc ▸ List.mem_cons_self c a2)
    have ha2 : '/' ∉ a2 := fun hmem => ha (List.mem_cons_of_mem c hmem)
    rw [List.cons_append, splitSlash, if_neg hc, ih ha2]
    rfl

theorem splitSlash_joinSlash (segs : List GoStr) (hne : segs ≠ [])
    (hns : ∀ s ∈ segs, '/' ∉ s) :
    splitSlash (joinSlash segs) = segs := by
  induction segs with
  | nil => exact absurd rfl hne
  | cons a rest ih =>
    cases rest with
    | nil =>
      rw [joinSlash]
      exact splitSlash_no_slash_self a (hns a (List.mem_cons_self a []))
    | cons b r =>
      rw [joinSlash]
      have hrest : splitSlash (joinSlash (b :: r)) = b :: r :=
        ih (by simp) (fun s hs => hns s (List.mem_cons_of_mem a hs))
      have hsl : splitSlash ('/' :: joinSlash (b :: r)) =
          [] :: b :: r := by
        rw [splitSlash, if_pos rfl, hrest]
      have := splitSlash_append a ('/' :: joinSlash (b :: r)) [] (b :: r)
        (hns a (List.mem_cons_self a (b :: r))) hsl
      simpa using this

theorem cleanStep_abs_preserves (acc : List GoStr) (seg : GoStr)
    (hacc : ∀ x ∈ acc, (x ≠ [] ∧ x ≠ ['.'] ∧ x ≠ ['.', '.']) ∧ '/' ∉ x)
    (hseg : '/' ∉ seg) :
    ∀ x ∈ cleanStep true acc seg,
      (x ≠ [] ∧ x ≠ ['.'] ∧ x ≠ ['.', '.']) ∧ '/' ∉ x := by
  rw [cleanStep.eq_def]
  by_cases h1 : seg = [] ∨ seg = ['.']
  · simpa [h1] using hacc
  · rw [if_neg h1]
    by_cases h2 : seg = ['.', '.']
    · rw [if_pos h2]
      cases hacc2 : acc with
      | nil => simp
      | cons top rest =>
        have htop : top ≠ ['.', '.'] :=
          ((hacc top (hacc2 ▸ List.mem_cons_self top rest)).1).2.2
        have hred : (match top :: rest with
            | [] => if true = true then ([] : List GoStr) else [seg]
            | top :: rest =>
              if top = ['.', '.'] then seg :: top :: rest else rest) =
            if top = ['.', '.'] then seg :: top :: rest else rest := rfl
        rw [hred, if_neg htop]
        intro x hx
        exact hacc x (hacc2 ▸ List.mem_cons_of_mem top hx)
    · rw [if_neg h2]
      intro x hx
      rcases List.mem_cons.mp hx with rfl | hx
      · exact ⟨⟨fun h => h1 (Or.inl h), fun h => h1 (Or.inr h), h2⟩, hseg⟩
      · exact hacc x hx

theorem foldl_cleanStep_abs_preserves (segs : List GoStr) :
    ∀ acc : List GoStr,
    (∀ x ∈ acc, (x ≠ [] ∧ x ≠ ['.'] ∧ x ≠ ['.', '.']) ∧ '/' ∉ x) →
    (∀ x ∈ segs, '/' ∉ x) →
    ∀ x ∈ segs.foldl (cleanStep true) acc,
      (x ≠ [] ∧ x ≠ ['.'] ∧ x ≠ ['.', '.']) ∧ '/' ∉ x := by
  induction segs with
  | nil => intro acc hacc _; simpa using hacc
  | cons a rest ih =>
    intro acc hacc hsegs
    rw [List.foldl_cons]
    exact ih (cleanStep true acc a)
      (cleanStep_abs_preserves acc a hacc (hsegs a (List.mem_cons_self a rest)))
      (fun x hx => hsegs x (List.mem_cons_of_mem a hx))

theorem cleanSegs_abs_good (segs : List GoStr)
    (hns : ∀ x ∈ segs, '/' ∉ x) :
    ∀ x ∈ cleanSegs true segs,
      (x ≠ [] ∧ x ≠ ['.'] ∧ x ≠ ['.', '.']) ∧ '/' ∉ x := by
  intro x hx
  rw [cleanSegs, List.mem_reverse] at hx
  exact foldl_cleanStep_abs_preserves segs [] (by simp) hns x hx

theorem cleanStep_push (abs : Bool) (acc : List GoStr) (seg : GoStr)
    (hgood : seg ≠ [] ∧ seg ≠ ['.'] ∧ seg ≠ ['.', '.']) :
    cleanStep abs acc seg = seg :: acc := by
  rw [cleanStep.eq_def, if_neg (by tauto), if_neg hgood.2.2]

theorem foldl_cleanStep_good (abs : Bool) (segs : List GoStr) :
    ∀ acc : List GoStr,
    (∀ x ∈ segs, x ≠ [] ∧ x ≠ ['.'] ∧ x ≠ ['.', '.']) →
    segs.foldl (cleanStep abs) acc = segs.reverse ++ acc := by
  induction segs with
  | nil => simp
  | cons a rest ih =>
    intro acc hgood
    rw [List.foldl_cons,
      cleanStep_push abs acc a (hgood a (List.mem_cons_self a rest)),
      ih (a :: acc) (fun x hx => hgood x (List.mem_cons_of_mem a hx))]
    simp

theorem cleanSegs_id_of_good (segs : List GoStr)
    (hgood : ∀ x ∈ segs, x ≠ [] ∧ x ≠ ['.'] ∧ x ≠ ['.', '.']) :
    cleanSegs true segs = segs := by
  rw [cleanSegs, foldl_cleanStep_good true segs [] hgood]
  simp

theorem isAbsPath_goClean (s : GoStr) (habs : isAbsPath s = true) :
    isAbsPath (goClean s) = true := by
  have hne : s ≠ [] := by
    intro h
    rw [h] at habs
    simp [isAbsPath] at habs
  rw [goClean, if_neg hne, habs]
  cases cleanSegs true (splitSlash s) with
  | nil => simp [isAbsPath]
  | cons h r => simp [isAbsPath]

theorem goClean_idem_abs (s : GoStr) (habs : isAbsPath s = true) :
    goClean (goClean s) = goClean s := by
  have hne : s ≠ [] := by
    intro h
    rw [h] at habs
    simp [isAbsPath] at habs
  have hgood := cleanSegs_abs_good (splitSlash s) (mem_splitSlash_no_slash s)
  cases hsegs : cleanSegs true (splitSlash s) with
  | nil =>
    have hs : goClean s = ['/'] := by
      rw [goClean.eq_def, if_neg hne, habs, hsegs]
      rfl
    rw [hs]
    decide
  | cons h r =>
    have hgood2 : ∀ x ∈ h :: r,
        (x ≠ [] ∧ x ≠ ['.'] ∧ x ≠ ['.', '.']) ∧ '/' ∉ x :=
      fun x hx => hgood x (hsegs ▸ hx)
    have hs : goClean s = '/' :: joinSlash (h :: r) := by
      rw [goClean.eq_def, if_neg hne, habs, hsegs]
      simp
    rw [hs]
    have hjoin : splitSlash (joinSlash (h :: r)) = h :: r :=
      splitSlash_joinSlash (h :: r) (by simp) (fun x hx => (hgood2 x hx).2)
    have hsp : splitSlash ('/' :: joinSlash (h :: r)) = [] :: h :: r := by
      rw [splitSlash, if_pos rfl, hjoin]
    have habs2 : isAbsPath ('/' :: joinSlash (h :: r)) = true := by
      simp [isAbsPath]
    have hclean : cleanSegs true (splitSlash ('/' :: joinSlash (h :: r))) =
        h :: r := by
      rw [hsp, cleanSegs, List.foldl_cons]
      have hstep : cleanStep true [] ([] : GoStr) = [] := by
        rw [cleanStep.eq_def]
        simp
      rw [hstep, ← cleanSegs,
        cleanSegs_id_of_good (h :: r) (fun x hx => (hgood2 x hx).1)]
    rw [goClean.eq_def, if_neg (by simp), habs2, hclean]
    simp

theorem goAbs_isAbs (cwd p : GoStr) (habs : isAbsPath cwd = true) :
    isAbsPath (goAbs cwd p) = true := by
  rw [goAbs]
  by_cases hp : isAbsPath p = true
  · rw [if_pos hp]
    exact isAbsPath_goClean p hp
  · rw [if_neg hp]
    apply isAbsPath_goClean
    cases cwd with
    | nil => simp [isAbsPath] at habs
    | cons c t => simpa [isAbsPath] using habs

theorem goAbs_idem (cwd : GoStr) (habs : isAbsPath cwd = true) (p : GoStr) :
    goAbs cwd (goAbs cwd p) = goAbs cwd p := by
  have h1 : isAbsPath (goAbs cwd p) = true := goAbs_isAbs cwd p habs
  rw [goAbs, if_pos h1]
  rw [goAbs]
  by_cases hp : isAbsPath p = true
  · rw [if_pos hp]
    exact goClean_idem_abs p hp
  · rw [if_neg hp]
    apply goClean_idem_abs
    cases cwd with
    | nil => simp [isAbsPath] at habs
    | cons c t => simpa [isAbsPath] using habs

theorem regFind_getLock_preserved (env : Option GoStr) (reg : Registry)
    (p k : GoStr) (l : LockId) (hfound : regFind reg.entries k = some l) :
    regFind (getLock env reg p).2.entries k = some l := by
  cases hfind : regFind reg.entries (canonKey env p) with
  | some l2 => simpa [getLock, hfind] using hfound
  | none =>
    have hk : k ≠ canonKey env p := by
      intro h
      rw [h, hfind] at hfound
      exact Option.noConfusion hfound
    simp [getLock, hfind, regFind, hk, hfound]

/-- C7: for a fixed absolute working directory, canonicalization is
idempotent, so a relative spelling and its absolute canonical spelling
share one registry key; any two spellings with the same canonical key
yield the very same lock (the second `getLock` returns the lock the first
created and does not modify the registry); and a lock, once registered
under a key, is returned unchanged by every later `getLock` — never
replaced or removed. -/
theorem canonicalization_and_registry (cwd : GoStr)
    (habs : isAbsPath cwd = true) :
    (∀ p, canonKey (some cwd) (canonKey (some cwd) p) =
      canonKey (some cwd) p) ∧
    (∀ reg p q, canonKey (some cwd) q = canonKey (some cwd) p →
      (getLock (some cwd) (getLock (some cwd) reg p).2 q).1 =
        (getLock (some cwd) reg p).1 ∧
      (getLock (some cwd) (getLock (some cwd) reg p).2 q).2 =
        (getLock (some cwd) reg p).2) ∧
    (∀ env reg p k l, regFind reg.entries k = some l →
      regFind (getLock env reg p).2.entries k = some l) := by
  refine ⟨goAbs_idem cwd habs, ?_, regFind_getLock_preserved⟩
  intro reg p q hq
  have hreg1 := (getLock_total (some cwd) reg p).1
  have : getLock (some cwd) (getLock (some cwd) reg p).2 q =
      ((getLock (some cwd) reg p).1, (getLock (some cwd) reg p).2) := by
    rw [getLock]
    simp only [canonKey] at hq ⊢
    rw [hq]
    simp only [canonKey] at hreg1
    rw [hreg1]
  rw [this]
  exact ⟨rfl, rfl⟩

/-- C7 witness: with working directory `/abs/path/to`, the relative
spelling `a/b.txt` and the absolute spelling `/abs/path/to/a/b.txt`
canonicalize to the same key, and on an empty registry the two `getLock`
calls return the same lock id 0. -/
theorem canonicalization_and_registry_witness :
    isAbsPath ("/abs/path/to".toList) = true ∧
    canonKey (some ("/abs/path/to".toList)) ("a/b.txt".toList) =
      "/abs/path/to/a/b.txt".toList ∧
    canonKey (some ("/abs/path/to".toList))
        ("/abs/path/to/a/b.txt".toList) =
      "/abs/path/to/a/b.txt".toList ∧
    (getLock (some ("/abs/path/to".toList)) ⟨[], 0⟩ ("a/b.txt".toList)).1
      = 0 ∧
    (getLock (some ("/abs/path/to".toList))
      (getLock (some ("/abs/path/to".toList)) ⟨[], 0⟩
        ("a/b.txt".toList)).2
      ("/abs/path/to/a/b.txt".toList)).1 = 0 ∧
    (∀ p, canonKey (some ("/abs/path/to".toList))
        (canonKey (some ("/abs/path/to".toList)) p) =
      canonKey (some ("/abs/path/to".toList)) p) :=
  ⟨by decide, by decide, by decide, by decide, by decide,
   (canonicalization_and_registry ("/abs/path/to".toList) (by decide)).1⟩

/-! ## Serializability of interleaved operations on one path -/

theorem applyWrite_self (op : FileOp) (s : GoStr) :
    applyWrite op s s = applyOp op s := by
  cases op <;> rfl

theorem execSeq_concat {n : Nat} (ops : Fin n → FileOp) (c0 : GoStr)
    (l : List (Fin n)) (i : Fin n) :
    execSeq ops c0 (l ++ [i]) = applyOp (ops i) (execSeq ops c0 l) := by
  simp [execSeq]

theorem execSeq_all_append {n : Nat} (ops : Fin n → FileOp)
    (hall : ∀ i, ops i = FileOp.append (payloadOf (ops i))) :
    ∀ (l : List (Fin n)) (c0 : GoStr),
    execSeq ops c0 l = c0 ++ (l.map (fun i => payloadOf (ops i))).flatten := by
  intro l
  induction l with
  | nil => intro c0; simp [execSeq]
  | cons i l ih =>
    intro c0
    have hstep : applyOp (ops i) c0 = c0 ++ payloadOf (ops i) := by
      rw [hall i]
      rfl
    calc execSeq ops c0 (i :: l)
        = execSeq ops (applyOp (ops i) c0) l := by simp [execSeq]
      _ = applyOp (ops i) c0 ++ (l.map (fun k => payloadOf (ops k))).flatten :=
          ih _
      _ = c0 ++ ((i :: l).map (fun k => payloadOf (ops k))).flatten := by
          rw [hstep]
          simp

theorem not_mem_of_nodup_concat {α : Type} {l : List α} {i : α}
    (h : (l ++ [i]).Nodup) : i ∉ l := by
  intro hmem
  rcases List.nodup_append.mp h with ⟨-, -, hdisj⟩
  exact hdisj hmem (List.mem_singleton_self i)

/-- The invariant holds initially. -/
theorem cfgInv_init {n : Nat} (ops : Fin n → FileOp) (c0 : GoStr) :
    CfgInv ops c0 (initCfg n c0) := by
  refine ⟨by simp [initCfg], by simp [initCfg], by simp [initCfg], ?_⟩
  exact ⟨by simp [initCfg], by simp [initCfg, execSeq]⟩

/-- Every interleaving step preserves the invariant. -/
theorem cfgInv_step {n : Nat} (ops : Fin n → FileOp) (c0 : GoStr)
    {c c2 : Cfg n} (hinv : CfgInv ops c0 c) (hstep : OpStep ops c c2) :
    CfgInv ops c0 c2 := by
  obtain ⟨hnd, hmem, hidle, hlock⟩ := hinv
  cases hstep with
  | acq i hpc hheld =>
    simp only [CfgInv]
    have hnotmem : i ∉ c.order := fun hin => by
      have := (hmem i).mp hin
      exact this hpc
    have hlock2 : (∀ k ∈ c.order, c.pc k = OpPC.done) ∧
        c.content = execSeq ops c0 c.order := by
      rw [hheld] at hlock
      exact hlock
    refine ⟨?_, ?_, ?_, ?_⟩
    · simpa [List.nodup_append] using ⟨hnd, fun hin => hnotmem hin⟩
    · intro k
      by_cases hk : k = i
      · subst hk
        simp [Function.update_same]
      · simp [Function.update_noteq hk, hmem k, hk]
    · intro k hkheld
      have hk : k ≠ i := by
        intro hki
        subst hki
        exact hkheld rfl
      rw [Function.update_noteq hk]
      by_cases hin : k ∈ c.order
      · exact Or.inr (hlock2.1 k hin)
      · exact Or.inl (by by_contra hne; exact hin ((hmem k).mpr hne))
    · refine ⟨c.order, rfl, ?_, Or.inl ⟨Function.update_same _ _ _, ?_⟩⟩
      · intro k hk
        have hki : k ≠ i := fun h => hnotmem (h ▸ hk)
        rw [Function.update_noteq hki]
        exact hlock2.1 k hk
      · exact hlock2.2
  | read i hpc =>
    simp only [CfgInv]
    have hheld : c.lockHeld = some i := by
      cases hl : c.lockHeld with
      | none =>
        rcases hidle i (by rw [hl]; simp) with h | h <;> rw [hpc] at h <;>
          exact OpPC.noConfusion h
      | some j =>
        by_cases hj : j = i
        · rw [hj]
        · rcases hidle i (by rw [hl]; simp; exact hj)
            with h | h <;> rw [hpc] at h <;> exact OpPC.noConfusion h
    have hlock2 : ∃ pre, c.order = pre ++ [i] ∧
        (∀ k ∈ pre, c.pc k = OpPC.done) ∧
        ((c.pc i = OpPC.locked ∧ c.content = execSeq ops c0 pre) ∨
         (c.pc i = OpPC.readDone (execSeq ops c0 pre) ∧
           c.content = execSeq ops c0 pre) ∨
         (c.pc i = OpPC.written ∧ c.content = execSeq ops c0 c.order)) := by
      rw [hheld] at hlock
      exact hlock
    obtain ⟨pre, hord, hdonepre, hcase⟩ := hlock2
    have hcontent : c.content = execSeq ops c0 pre := by
      rcases hcase with ⟨-, h⟩ | ⟨h, -⟩ | ⟨h, -⟩
      · exact h
      · rw [hpc] at h
        exact absurd h (by simp)
      · rw [hpc] at h
        exact absurd h (by simp)
    have hinotpre : i ∉ pre := not_mem_of_nodup_concat (hord ▸ hnd)
    refine ⟨hnd, ?_, ?_, ?_⟩
    · intro k
      by_cases hk : k = i
      · subst hk
        rw [Function.update_same]
        constructor
        · intro _
          simp
        · intro _
          rw [hord]
          simp
      · rw [Function.update_noteq hk]
        exact hmem k
    · intro k hkheld
      have hk : k ≠ i := by
        intro hki
        subst hki
        exact hkheld hheld
      rw [Function.update_noteq hk]
      exact hidle k hkheld
    · rw [hheld]
      refine ⟨pre, hord, ?_, Or.inr (Or.inl ⟨?_, hcontent⟩)⟩
      · intro k hk
        have hki : k ≠ i := fun h => hinotpre (h ▸ hk)
        rw [Function.update_noteq hki]
        exact hdonepre k hk
      · rw [Function.update_same, hcontent]
  | write i snap hpc =>
    simp only [CfgInv]
    have hheld : c.lockHeld = some i := by
      cases hl : c.lockHeld with
      | none =>
        rcases hidle i (by rw [hl]; simp) with h | h <;> rw [hpc] at h <;>
          exact OpPC.noConfusion h
      | some j =>
        by_cases hj : j = i
        · rw [hj]
        · rcases hidle i (by rw [hl]; simp; exact hj)
            with h | h <;> rw [hpc] at h <;> exact OpPC.noConfusion h
    have hlock2 : ∃ pre, c.order = pre ++ [i] ∧
        (∀ k ∈ pre, c.pc k = OpPC.done) ∧
        ((c.pc i = OpPC.locked ∧ c.content = execSeq ops c0 pre) ∨
         (c.pc i = OpPC.readDone (execSeq ops c0 pre) ∧
           c.content = execSeq ops c0 pre) ∨
         (c.pc i = OpPC.written ∧ c.content = execSeq ops c0 c.order)) := by
      rw [hheld] at hlock
      exact hlock
    obtain ⟨pre, hord, hdonepre, hcase⟩ := hlock2
    have hsnap : snap = execSeq ops c0 pre ∧
        c.content = execSeq ops c0 pre := by
      rcases hcase with ⟨h, -⟩ | ⟨h, hc⟩ | ⟨h, -⟩
      · rw [hpc] at h
        exact absurd h (by simp)
      · rw [hpc] at h
        exact ⟨(OpPC.readDone.injEq _ _).mp h, hc⟩
      · rw [hpc] at h
        exact absurd h (by simp)
    have hinotpre : i ∉ pre := not_mem_of_nodup_concat (hord ▸ hnd)
    refine ⟨hnd, ?_, ?_, ?_⟩
    · intro k
      by_cases hk : k = i
      · subst hk
        rw [Function.update_same]
        constructor
        · intro _
          simp
        · intro _
          rw [hord]
          simp
      · rw [Function.update_noteq hk]
        exact hmem k
    · intro k hkheld
      have hk : k ≠ i := by
        intro hki
        subst hki
        exact hkheld hheld
      rw [Function.update_noteq hk]
      exact hidle k hkheld
    · rw [hheld]
      refine ⟨pre, hord, ?_, Or.inr (Or.inr ⟨Function.update_same _ _ _, ?_⟩)⟩
      · intro k hk
        have hki : k ≠ i := fun h => hinotpre (h ▸ hk)
        rw [Function.update_noteq hki]
        exact hdonepre k hk
      · rw [hsnap.1, hsnap.2, applyWrite_self, hord, execSeq_concat]
  | release i hpc =>
    simp only [CfgInv]
    have hheld : c.lockHeld = some i := by
      cases hl : c.lockHeld with
      | none =>
        rcases hidle i (by rw [hl]; simp) with h | h <;> rw [hpc] at h <;>
          exact OpPC.noConfusion h
      | some j =>
        by_cases hj : j = i
        · rw [hj]
        · rcases hidle i (by rw [hl]; simp; exact hj)
            with h | h <;> rw [hpc] at h <;> exact OpPC.noConfusion h
    have hlock2 : ∃ pre, c.order = pre ++ [i] ∧
        (∀ k ∈ pre, c.pc k = OpPC.done) ∧
        ((c.pc i = OpPC.locked ∧ c.content = execSeq ops c0 pre) ∨
         (c.pc i = OpPC.readDone (execSeq ops c0 pre) ∧
           c.content = execSeq ops c0 pre) ∨
         (c.pc i = OpPC.written ∧ c.content = execSeq ops c0 c.order)) := by
      rw [hheld] at hlock
      exact hlock
    obtain ⟨pre, hord, hdonepre, hcase⟩ := hlock2
    have hcontent : c.content = execSeq ops c0 c.order := by
      rcases hcase with ⟨h, -⟩ | ⟨h, -⟩ | ⟨-, h⟩
      · rw [hpc] at h
        exact absurd h (by simp)
      · rw [hpc] at h
        exact absurd h (by simp)
      · exact h
    refine ⟨hnd, ?_, ?_, ?_⟩
    · intro k
      by_cases hk : k = i
      · subst hk
        rw [Function.update_same]
        constructor
        · intro _
          simp
        · intro _
          rw [hord]
          simp
      · rw [Function.update_noteq hk]
        exact hmem k
    · intro k _
      by_cases hk : k = i
      · subst hk
        rw [Function.update_same]
        exact Or.inr rfl
      · rw [Function.update_noteq hk]
        by_cases hkpre : k ∈ pre
        · exact Or.inr (hdonepre k hkpre)
        · have hknot : k ∉ c.order := by
            rw [hord]
            simp [hkpre, hk]
          exact Or.inl (by by_contra hne; exact hknot ((hmem k).mpr hne))
    · refine ⟨?_, hcontent⟩
      intro k hk
      by_cases hki : k = i
      · subst hki
        exact Function.update_same _ _ _
      · rw [Function.update_noteq hki]
        rcases (by rw [hord] at hk; simpa using hk : k ∈ pre ∨ k = i) with
          hkp | hke
        · exact hdonepre k hkp
        · exact absurd hke hki

/-- The invariant holds in every reachable configuration. -/
theorem cfgInv_reachable {n : Nat} (ops : Fin n → FileOp) (c0 : GoStr)
    {c : Cfg n} (hr : Reaches ops (initCfg n c0) c) : CfgInv ops c0 c := by
  induction hr with
  | refl => exact cfgInv_init ops c0
  | tail hsteps hstep ih => exact cfgInv_step ops c0 ih hstep

/-- C1: any interleaving of concurrent `SafeEdit`/`SafeAppend` calls on
one path that runs all calls to completion produces the file content of
some sequential ordering of those calls (the lock-acquisition order, each
call exactly once); in particular, when all calls are appends, the final
content is the pre-existing content followed by all payloads concatenated
in that serial order — no payload lost, truncated, or interleaved. -/
theorem concurrent_ops_serializable {n : Nat} (ops : Fin n → FileOp)
    (c0 : GoStr) (c : Cfg n) (hr : Reaches ops (initCfg n c0) c)
    (hdone : ∀ i, c.pc i = OpPC.done) :
    ∃ ord : List (Fin n), ord.Nodup ∧ (∀ i, i ∈ ord) ∧
      c.content = execSeq ops c0 ord ∧
      ((∀ i, ops i = FileOp.append (payloadOf (ops i))) →
        c.content = c0 ++ (ord.map (fun i => payloadOf (ops i))).flatten) := by
  obtain ⟨hnd, hmem, hidle, hlock⟩ := cfgInv_reachable ops c0 hr
  have hnone : c.lockHeld = none := by
    cases hl : c.lockHeld with
    | none => rfl
    | some j =>
      exfalso
      have hlock2 : ∃ pre, c.order = pre ++ [j] ∧
          (∀ k ∈ pre, c.pc k = OpPC.done) ∧
          ((c.pc j = OpPC.locked ∧ c.content = execSeq ops c0 pre) ∨
           (c.pc j = OpPC.readDone (execSeq ops c0 pre) ∧
             c.content = execSeq ops c0 pre) ∨
           (c.pc j = OpPC.written ∧ c.content = execSeq ops c0 c.order)) := by
        rw [hl] at hlock
        exact hlock
      obtain ⟨pre, -, -, hcase⟩ := hlock2
      rcases hcase with ⟨h, -⟩ | ⟨h, -⟩ | ⟨h, -⟩ <;> rw [hdone j] at h <;>
        exact OpPC.noConfusion h
  have hfin : (∀ k ∈ c.order, c.pc k = OpPC.done) ∧
      c.content = execSeq ops c0 c.order := by
    rw [hnone] at hlock
    exact hlock
  refine ⟨c.order, hnd, ?_, hfin.2, ?_⟩
  · intro i
    refine (hmem i).mpr ?_
    rw [hdone i]
    simp
  · intro hall
    rw [hfin.2]
    exact execSeq_all_append ops hall c.order c0

/-- C1 witness: two concurrent appends of `"A"` and `"B"` to a file with
pre-existing content `"C"`, run in a concrete complete interleaving,
reach a final configuration whose content is `"CAB"` — the sequential
execution of some ordering of the two calls. -/
theorem concurrent_ops_serializable_witness :
    ∃ c : Cfg 2,
      Reaches (fun i => FileOp.append (if i = 0 then ['A'] else ['B']))
        (initCfg 2 ['C']) c ∧
      (∀ i, c.pc i = OpPC.done) ∧
      c.content = ['C', 'A', 'B'] ∧
      ∃ ord : List (Fin 2), ord.Nodup ∧ (∀ i, i ∈ ord) ∧
        c.content =
          execSeq (fun i => FileOp.append (if i = 0 then ['A'] else ['B']))
            ['C'] ord := by
  have hr := (((((((Relation.ReflTransGen.single
    ((OpStep.acq (initCfg 2 ['C']) 0 (by decide) (by decide)) :
      OpStep (fun i : Fin 2 => FileOp.append (if i = 0 then ['A'] else ['B']))
        (initCfg 2 ['C']) _)).tail
    (OpStep.read _ 0 (by decide))).tail
    (OpStep.write _ 0 ['C'] (by decide))).tail
    (OpStep.release _ 0 (by decide))).tail
    (OpStep.acq _ 1 (by decide) (by decide))).tail
    (OpStep.read _ 1 (by decide))).tail
    (OpStep.write _ 1 ['C', 'A'] (by decide))).tail
    (OpStep.release _ 1 (by decide))
  refine ⟨_, hr, by decide, by decide, ?_⟩
  obtain ⟨ord, hnd, hall, hcontent, -⟩ :=
    concurrent_ops_serializable
      (fun i => FileOp.append (if i = 0 then ['A'] else ['B'])) ['C'] _ hr
      (by decide)
  exact ⟨ord, hnd, hall, hcontent⟩

end Picoclaw
